import Mathlib

/-!
Shallow embedding of `src/Statute_Finder.py` (class `StatuteCrossReferenceFinder`).

Text is modelled as `List Char` (a Python `str` is a sequence of code points,
indexed by code point, which is what `re` spans refer to).  The engine below
implements Python `re` matching semantics for the constructs appearing in the
five patterns of the source: character classes, literals under `IGNORECASE`,
alternation, greedy option / star / plus, capture groups and the word-boundary
assertion `\b`.  A match attempt at a position produces the full list of
candidate match endpoints in backtracking priority order (greedy first,
alternatives left to right); the overall match taken at a position is the head
of that list, exactly the match the backtracking engine returns.  `finditer`
scans positions left to right and resumes after the end of each match.
Unicode-only extensions of the `\d`, `\s`, `\w` and letter classes are
approximated by their ASCII cores; none of the theorems depend on the exact
character-level predicates.
-/

/-- Capture store threaded through a match attempt: entries
`(group index, start, stop)`, most recent capture first. -/
abbrev GMap : Type := List (Nat × Nat × Nat)

/-- Regular-expression syntax used by the five patterns of the source. -/
inductive Regex where
  | eps : Regex
  | cls : (Char → Bool) → Regex
  | wordB : Regex
  | seq : Regex → Regex → Regex
  | alt : Regex → Regex → Regex
  | star : Regex → Regex
  | group : Nat → Regex → Regex

/-- Python `\s` (ASCII core). -/
def isSpaceC (c : Char) : Bool :=
  c = ' ' || c = '\t' || c = '\n' || c = '\x0b' || c = '\x0c' || c = '\r'

/-- Python `\w` (ASCII core), used by the `\b` assertion. -/
def isWordChar (c : Char) : Bool := c.isAlphanum || c = '_'

/-- Whether the character at position `p` exists and is a word character. -/
def wordAt (full : List Char) (p : Nat) : Bool :=
  match full.get? p with
  | some c => isWordChar c
  | none => false

/-- Python `\b`: a word character on exactly one side of position `p`. -/
def wordBoundary (full : List Char) (p : Nat) : Bool :=
  (decide (p ≠ 0) && wordAt full (p - 1)) != wordAt full p

/-- Number of syntax nodes of a pattern, used to bound recursion depth. -/
def Regex.size : Regex → Nat
  | .eps => 1
  | .cls _ => 1
  | .wordB => 1
  | .seq a b => a.size + b.size + 1
  | .alt a b => a.size + b.size + 1
  | .star a => a.size + 1
  | .group _ a => a.size + 1

/-- All candidate endpoints (with capture stores) of matching `r` at position
`p` of `full`, in backtracking priority order.  Greedy star iterates its body
as often as possible (deeper iteration first) and never repeats from an
empty-width body match, exactly as Python `re` stops a star on zero progress.

`fuel` bounds the depth of the call tree and makes the recursion structural.
Along any call path the scan position never decreases, every star re-entry
strictly increases it (at most `length + 1` increases), and between two
increases every step descends into a strict subpattern (at most `size`
steps), so a depth of `(size + 1) * (length + 2)` is never exhausted;
`matchFuel` below provides it. -/
def RMatchF (full : List Char) : Nat → Regex → Nat → GMap → List (Nat × GMap)
  | 0, _, _, _ => []
  | _ + 1, .eps, p, g => [(p, g)]
  | _ + 1, .cls pr, p, g =>
      match full.get? p with
      | some c => if pr c then [(p + 1, g)] else []
      | none => []
  | _ + 1, .wordB, p, g => if wordBoundary full p then [(p, g)] else []
  | fuel + 1, .seq a b, p, g =>
      (RMatchF full fuel a p g).flatMap fun x => RMatchF full fuel b x.1 x.2
  | fuel + 1, .alt a b, p, g => RMatchF full fuel a p g ++ RMatchF full fuel b p g
  | fuel + 1, .star a, p, g =>
      (((RMatchF full fuel a p g).filter (fun x => p < x.1)).flatMap
          (fun x => RMatchF full fuel (.star a) x.1 x.2)) ++ [(p, g)]
  | fuel + 1, .group i a, p, g =>
      (RMatchF full fuel a p g).map fun x => (x.1, (i, p, x.1) :: x.2)

/-- A call-tree depth the matcher can never reach (see `RMatchF`). -/
def matchFuel (full : List Char) (r : Regex) : Nat :=
  (r.size + 1) * (full.length + 2)

/-- Match attempt of `r` at position `p` of `full`: all candidate endpoints
in backtracking priority order. -/
def RMatch (full : List Char) (r : Regex) (p : Nat) (g : GMap) : List (Nat × GMap) :=
  RMatchF full (matchFuel full r) r p g

/-- Scan of `re.finditer`: try each start position left to right, emit the
priority match at the first position that succeeds, resume at its end
(or one further on an empty match).  Each step advances the start position,
so fuel `full.length + 1` from position `0` is never exhausted early. -/
def finditerAux (full : List Char) (r : Regex) : Nat → Nat → List (Nat × Nat × GMap)
  | 0, _ => []
  | fuel + 1, s =>
      if s ≤ full.length then
        match (RMatch full r s []).head? with
        | some x => (s, x.1, x.2) :: finditerAux full r fuel (if s < x.1 then x.1 else s + 1)
        | none => finditerAux full r fuel (s + 1)
      else []

/-- All matches of `r` in `full`, as `(start, stop, captures)`, left to right. -/
def finditer (full : List Char) (r : Regex) : List (Nat × Nat × GMap) :=
  finditerAux full r (full.length + 1) 0

/-! Building blocks for the five patterns, `IGNORECASE` baked in. -/

def digitC : Regex := .cls Char.isDigit

def spaceC : Regex := .cls isSpaceC

/-- `[a-z]` or `[A-Z]` under `IGNORECASE`: any ASCII letter. -/
def letterC : Regex := .cls Char.isAlpha

/-- The class `[.-]`. -/
def dotDash : Regex := .cls (fun c => c = '.' || c = '-')

/-- A literal character (no case folding: used for `.`, `-`, `§`). -/
def lit (c : Char) : Regex := .cls (fun x => x = c)

/-- A literal letter under `IGNORECASE`. -/
def litCI (c : Char) : Regex := .cls (fun x => x.toLower = c.toLower)

/-- Greedy `r?`. -/
def ropt (r : Regex) : Regex := .alt r .eps

/-- Greedy `r+`. -/
def rplus (r : Regex) : Regex := .seq r (.star r)

def rseq (l : List Regex) : Regex := l.foldr .seq .eps

/-- A literal word under `IGNORECASE`. -/
def strCI (s : String) : Regex := rseq (s.toList.map litCI)

/-- Source pattern `USC`: `\b(\d+)\s+U\.?S\.?C\.?\s+§?\s*(\d+[a-z]?(?:-\d+)?)`. -/
def uscRegex : Regex :=
  rseq [.wordB, .group 1 (rplus digitC), rplus spaceC,
        litCI 'u', ropt (lit '.'), litCI 's', ropt (lit '.'), litCI 'c', ropt (lit '.'),
        rplus spaceC, ropt (lit '§'), .star spaceC,
        .group 2 (rseq [rplus digitC, ropt letterC, ropt (rseq [lit '-', rplus digitC])])]

/-- Source pattern `CFR`: `\b(\d+)\s+C\.?F\.?R\.?\s+§?\s*(\d+(?:\.\d+)?)`. -/
def cfrRegex : Regex :=
  rseq [.wordB, .group 1 (rplus digitC), rplus spaceC,
        litCI 'c', ropt (lit '.'), litCI 'f', ropt (lit '.'), litCI 'r', ropt (lit '.'),
        rplus spaceC, ropt (lit '§'), .star spaceC,
        .group 2 (rseq [rplus digitC, ropt (rseq [lit '.', rplus digitC])])]

/-- Source pattern `State_Code`:
`\b([A-Z][a-z]+)\s+(?:Code|Stat\.?|Rev\.?\s+Stat\.?)\s+§?\s*(\d+(?:[.-]\d+)*)`. -/
def stateCodeRegex : Regex :=
  rseq [.wordB, .group 1 (.seq letterC (rplus letterC)), rplus spaceC,
        .alt (strCI ("Code"))
          (.alt (.seq (strCI ("Stat")) (ropt (lit '.')))
                (rseq [strCI ("Rev"), ropt (lit '.'), rplus spaceC, strCI ("Stat"), ropt (lit '.')])),
        rplus spaceC, ropt (lit '§'), .star spaceC,
        .group 2 (rseq [rplus digitC, .star (.seq dotDash (rplus digitC))])]

/-- Source pattern `Section_Only`: `§\s*(\d+(?:[.-]\d+[a-z]?)*)`. -/
def sectionOnlyRegex : Regex :=
  rseq [lit '§', .star spaceC,
        .group 1 (rseq [rplus digitC, .star (rseq [dotDash, rplus digitC, ropt letterC])])]

/-- Source pattern `Statute_Year`: `\b(Pub\.?\s+L\.?\s+No\.?\s+)(\d+-\d+)`. -/
def statuteYearRegex : Regex :=
  rseq [.wordB,
        .group 1 (rseq [strCI ("Pub"), ropt (lit '.'), rplus spaceC,
                        litCI 'l', ropt (lit '.'), rplus spaceC,
                        litCI 'n', litCI 'o', ropt (lit '.'), rplus spaceC]),
        .group 2 (rseq [rplus digitC, lit '-', rplus digitC])]

/-- Number of capture groups of a pattern (highest group index). -/
def Regex.numGroups : Regex → Nat
  | .eps => 0
  | .cls _ => 0
  | .wordB => 0
  | .seq a b => max a.numGroups b.numGroups
  | .alt a b => max a.numGroups b.numGroups
  | .star a => a.numGroups
  | .group i a => max i a.numGroups

/-- The pattern registry `self.patterns`, in its fixed insertion order. -/
def patterns : List (String × Regex) :=
  [("USC", uscRegex), ("CFR", cfrRegex), ("State_Code", stateCodeRegex),
   ("Section_Only", sectionOnlyRegex), ("Statute_Year", statuteYearRegex)]

/-- The per-match record `ref_data` built by `find_references`:
`full_text = match.group(0)`, `position = match.span()`, `groups = match.groups()`. -/
structure RefData where
  full_text : List Char
  position : Nat × Nat
  groups : List (Option (List Char))
deriving DecidableEq, Repr

/-- Python slice `full[s:e]` for `0 ≤ s ≤ e`. -/
def extract (full : List Char) (s e : Nat) : List Char := (full.drop s).take (e - s)

/-- The span captured by group `i` (most recent capture wins, as in `re`). -/
def lookupG (g : GMap) (i : Nat) : Option (Nat × Nat) :=
  match g with
  | [] => none
  | x :: rest => if x.1 = i then some x.2 else lookupG rest i

/-- The list of `ref_data` records one family's pattern produces on `full`:
the body of the inner loop of `find_references`. -/
def findRefsFamily (full : List Char) (r : Regex) : List RefData :=
  (finditer full r).map fun m =>
    { full_text := extract full m.1 m.2.1
      position := (m.1, m.2.1)
      groups := (List.range r.numGroups).map fun i =>
        (lookupG m.2.2 (i + 1)).map fun ab => extract full ab.1 ab.2 }

/-- `find_references`: one entry per family in registry order; a family gets a
key in the `defaultdict(list)` only when at least one match was appended. -/
def find_references (text : List Char) : List (String × List RefData) :=
  patterns.filterMap fun nr =>
    let ms := findRefsFamily text nr.2
    if ms.isEmpty then none else some (nr.1, ms)

/-- `get_unique_references`: per family, the Python `set` of `full_text`
values, modelled as the duplicate-free list of distinct values (a Python set
is unordered; only membership and cardinality are meaningful). -/
def get_unique_references (text : List Char) : List (String × List (List Char)) :=
  (find_references text).map fun e => (e.1, (e.2.map (·.full_text)).dedup)

/-- The context snippet of `create_cross_reference_map`:
`text[max(0, position - 50) : min(len(text), position + len(citation) + 50)]`
with every newline replaced by a space (`Nat` subtraction is the `max 0`). -/
def contextOf (text : List Char) (position : Nat) (citation : List Char) : List Char :=
  ((text.drop (position - 50)).take
      (min text.length (position + citation.length + 50) - (position - 50))).map
    fun c => if c = '\n' then ' ' else c

/-- One `xref_map[citation].append(v)` step on an insertion-ordered dict. -/
def addXref {β : Type} (m : List (List Char × List β)) (k : List Char) (v : β) :
    List (List Char × List β) :=
  match m with
  | [] => [(k, [v])]
  | e :: rest => if e.1 = k then (e.1, e.2 ++ [v]) :: rest else e :: addXref rest k v

/-- `create_cross_reference_map`: walk all matches, family by family in
registry order, appending `(start, context)` under the match's `full_text`. -/
def create_cross_reference_map (text : List Char) :
    List (List Char × List (Nat × List Char)) :=
  ((find_references text).flatMap (·.2)).foldl
    (fun m ref =>
      addXref m ref.full_text (ref.position.1, contextOf text ref.position.1 ref.full_text)) []

/-- The result dictionary of `analyze_document`. -/
structure AnalysisResult where
  total_references : Nat
  unique_references : Nat
  by_type : List (String × Nat)
  unique_citations : List (String × List (List Char))
  cross_reference_map : List (List Char × List (Nat × List Char))
  all_references : List (String × List RefData)
deriving DecidableEq, Repr

/-- `analyze_document`. -/
def analyze_document (text : List Char) : AnalysisResult :=
  let all_refs := find_references text
  let unique_refs := get_unique_references text
  let xref_map := create_cross_reference_map text
  { total_references := (all_refs.map (fun e => e.2.length)).sum
    unique_references := (unique_refs.map (fun e => e.2.length)).sum
    by_type := all_refs.map fun e => (e.1, e.2.length)
    unique_citations := unique_refs
    cross_reference_map := xref_map
    all_references := all_refs }

/-! Structural facts about the matching engine. -/

theorem mem_of_head?_eq {α : Type _} {l : List α} {a : α} (h : l.head? = some a) : a ∈ l := by
  cases l with
  | nil => cases h
  | cons b t =>
      simp only [List.head?_cons, Option.some.injEq] at h
      exact h ▸ List.mem_cons_self b t

/-- Every endpoint of a match attempt at `p ≤ length` lies in `[p, length]`,
whatever the fuel. -/
theorem RMatchF_bounds (full : List Char) :
    ∀ fuel r p g, p ≤ full.length →
      ∀ x ∈ RMatchF full fuel r p g, p ≤ x.1 ∧ x.1 ≤ full.length := by
  intro fuel
  induction fuel with
  | zero => intro r p g hp x hx; cases hx
  | succ fuel ih =>
      intro r p g hp x hx
      cases r with
      | eps =>
          simp only [RMatchF, List.mem_singleton] at hx
          simp [hx, hp]
      | cls pr =>
          simp only [RMatchF] at hx
          cases hg : full.get? p with
          | none => rw [hg] at hx; cases hx
          | some c =>
              rw [hg] at hx
              have hlt : p < full.length := (List.get?_eq_some.mp hg).1
              by_cases hc : pr c
              · simp only [hc, if_true, List.mem_singleton] at hx
                simp [hx]
                omega
              · simp [hc] at hx
      | wordB =>
          simp only [RMatchF] at hx
          split at hx
          · simp only [List.mem_singleton] at hx
            simp [hx, hp]
          · cases hx
      | seq a b =>
          simp only [RMatchF, List.mem_flatMap] at hx
          obtain ⟨y, hy, hx⟩ := hx
          have h1 := ih a p g hp y hy
          have h2 := ih b y.1 y.2 h1.2 x hx
          exact ⟨le_trans h1.1 h2.1, h2.2⟩
      | alt a b =>
          simp only [RMatchF, List.mem_append] at hx
          rcases hx with hx | hx
          · exact ih a p g hp x hx
          · exact ih b p g hp x hx
      | star a =>
          simp only [RMatchF, List.mem_append, List.mem_flatMap, List.mem_filter,
            List.mem_singleton, decide_eq_true_eq] at hx
          rcases hx with ⟨y, ⟨hy, _⟩, hx⟩ | hx
          · have h1 := ih a p g hp y hy
            have h2 := ih (.star a) y.1 y.2 h1.2 x hx
            exact ⟨le_trans h1.1 h2.1, h2.2⟩
          · simp [hx, hp]
      | group i a =>
          simp only [RMatchF, List.mem_map] at hx
          obtain ⟨y, hy, rfl⟩ := hx
          exact ih a p g hp y hy

/-- Bounds for the match attempt `RMatch`. -/
theorem RMatch_bounds (full : List Char) (r : Regex) (p : Nat) (g : GMap)
    (hp : p ≤ full.length) : ∀ x ∈ RMatch full r p g, p ≤ x.1 ∧ x.1 ≤ full.length :=
  RMatchF_bounds full (matchFuel full r) r p g hp

/-- Every match the scan emits starts at or after the scan position, and its
span is inside `[0, length]` with start at or before stop. -/
theorem finditerAux_mem (full : List Char) (r : Regex) :
    ∀ fuel s, ∀ m ∈ finditerAux full r fuel s,
      s ≤ m.1 ∧ m.1 ≤ full.length ∧ m.1 ≤ m.2.1 ∧ m.2.1 ≤ full.length := by
  intro fuel
  induction fuel with
  | zero => intro s m hm; cases hm
  | succ fuel ih =>
      intro s m hm
      simp only [finditerAux] at hm
      split at hm
      case isTrue hs =>
        cases hh : (RMatch full r s []).head? with
        | none =>
            rw [hh] at hm
            have h := ih (s + 1) m hm
            exact ⟨by omega, h.2.1, h.2.2.1, h.2.2.2⟩
        | some x =>
            rw [hh] at hm
            rcases List.mem_cons.mp hm with rfl | hm
            · have hx := RMatch_bounds full r s [] hs x (mem_of_head?_eq hh)
              exact ⟨le_refl _, hs, hx.1, hx.2⟩
            · have h := ih _ m hm
              have hnext : s < (if s < x.1 then x.1 else s + 1) := by split <;> omega
              have h1 := h.1
              exact ⟨by omega, h.2.1, h.2.2.1, h.2.2.2⟩
      case isFalse => cases hm

/-- The scan emits matches at strictly increasing start positions. -/
theorem finditerAux_sorted (full : List Char) (r : Regex) :
    ∀ fuel s, ((finditerAux full r fuel s).map (fun m => m.1)).Pairwise (· < ·) := by
  intro fuel
  induction fuel with
  | zero => intro s; simp [finditerAux]
  | succ fuel ih =>
      intro s
      simp only [finditerAux]
      split
      case isTrue hs =>
        cases hh : (RMatch full r s []).head? with
        | none => exact ih (s + 1)
        | some x =>
            simp only [List.map_cons, List.pairwise_cons]
            refine ⟨?_, ih _⟩
            intro b hb
            simp only [List.mem_map] at hb
            obtain ⟨m, hm, rfl⟩ := hb
            have h1 := (finditerAux_mem full r fuel _ m hm).1
            have hnext : s < (if s < x.1 then x.1 else s + 1) := by split <;> omega
            omega
      case isFalse => simp

/-! Insertion-ordered dictionary lemmas for the cross-reference map. -/

/-- Value list stored under key `k` (empty when the key is absent). -/
def lookList {β : Type} : List (List Char × List β) → List Char → List β
  | [], _ => []
  | e :: rest, k => if e.1 = k then e.2 else lookList rest k

theorem lookList_addXref_self {β : Type} (m : List (List Char × List β)) (k : List Char)
    (v : β) : lookList (addXref m k v) k = lookList m k ++ [v] := by
  induction m with
  | nil => simp [addXref, lookList]
  | cons e rest ih =>
      by_cases h : e.1 = k
      · simp [addXref, lookList, h]
      · simp [addXref, lookList, h, ih]

theorem lookList_addXref_ne {β : Type} (m : List (List Char × List β)) (k k' : List Char)
    (v : β) (hk : k' ≠ k) : lookList (addXref m k v) k' = lookList m k' := by
  induction m with
  | nil => simp [addXref, lookList, Ne.symm hk]
  | cons e rest ih =>
      by_cases h : e.1 = k
      · have hne : ¬ (e.1 = k') := fun hc => hk (hc.symm.trans h)
        simp only [addXref, if_pos h, lookList, if_neg hne]
      · by_cases h' : e.1 = k'
        · simp only [addXref, if_neg h, lookList, if_pos h']
        · simp only [addXref, if_neg h, lookList, if_neg h', ih]

theorem mem_keys_addXref {β : Type} (m : List (List Char × List β)) (k : List Char) (v : β)
    (a : List Char) :
    a ∈ (addXref m k v).map (fun e => e.1) ↔ a ∈ m.map (fun e => e.1) ∨ a = k := by
  induction m with
  | nil => simp [addXref]
  | cons e rest ih =>
      by_cases h : e.1 = k
      · simp only [addXref, if_pos h, List.map_cons, List.mem_cons]
        constructor
        · rintro (rfl | hr)
          · exact Or.inl (Or.inl rfl)
          · exact Or.inl (Or.inr hr)
        · rintro ((rfl | hr) | rfl)
          · exact Or.inl rfl
          · exact Or.inr hr
          · exact Or.inl h.symm
      · simp only [addXref, if_neg h, List.map_cons, List.mem_cons, ih]
        tauto

theorem keysNodup_addXref {β : Type} {m : List (List Char × List β)}
    (h : (m.map (fun e => e.1)).Nodup) (k : List Char) (v : β) :
    ((addXref m k v).map (fun e => e.1)).Nodup := by
  induction m with
  | nil => simp [addXref]
  | cons e rest ih =>
      by_cases he : e.1 = k
      · simpa [addXref, he] using h
      · simp only [List.map_cons, List.nodup_cons] at h
        simp only [addXref, if_neg he, List.map_cons, List.nodup_cons]
        refine ⟨?_, ih h.2⟩
        rw [mem_keys_addXref]
        rintro (hc | rfl)
        · exact h.1 hc
        · exact he rfl

theorem lookList_mem {β : Type} {m : List (List Char × List β)}
    (hnd : (m.map (fun e => e.1)).Nodup) {k : List Char} {locs : List β}
    (h : (k, locs) ∈ m) : lookList m k = locs := by
  induction m with
  | nil => cases h
  | cons e rest ih =>
      simp only [List.map_cons, List.nodup_cons] at hnd
      rcases List.mem_cons.mp h with rfl | hr
      · simp [lookList]
      · have hk : k ∈ rest.map (fun e => e.1) := by
          exact List.mem_map.mpr ⟨(k, locs), hr, rfl⟩
        have hne : ¬ (e.1 = k) := fun hc => hnd.1 (hc ▸ hk)
        simp only [lookList, if_neg hne]
        exact ih hnd.2 hr

/-- Folding `addXref` over a list of key-value pairs. -/
def foldXref {β : Type} (l : List (List Char × β)) (m : List (List Char × List β)) :
    List (List Char × List β) :=
  l.foldl (fun acc kv => addXref acc kv.1 kv.2) m

theorem lookList_foldXref {β : Type} (l : List (List Char × β)) :
    ∀ (m : List (List Char × List β)) (k : List Char),
      lookList (foldXref l m) k
        = lookList m k ++ (l.filter (fun kv => kv.1 = k)).map (fun kv => kv.2) := by
  induction l with
  | nil => intro m k; simp [foldXref]
  | cons kv rest ih =>
      intro m k
      have hstep : foldXref (kv :: rest) m = foldXref rest (addXref m kv.1 kv.2) := rfl
      rw [hstep, ih]
      by_cases h : kv.1 = k
      · rw [h, lookList_addXref_self]
        simp [h, List.filter_cons]
      · rw [lookList_addXref_ne m kv.1 k kv.2 (fun hc => h hc.symm)]
        simp [h, List.filter_cons]

theorem keysNodup_foldXref {β : Type} (l : List (List Char × β)) :
    ∀ (m : List (List Char × List β)), ((m.map (fun e => e.1)).Nodup) →
      (((foldXref l m).map (fun e => e.1)).Nodup) := by
  induction l with
  | nil => intro m hm; exact hm
  | cons kv rest ih =>
      intro m hm
      exact ih (addXref m kv.1 kv.2) (keysNodup_addXref hm kv.1 kv.2)

theorem mem_keys_foldXref {β : Type} (l : List (List Char × β)) :
    ∀ (m : List (List Char × List β)) (a : List Char),
      a ∈ (foldXref l m).map (fun e => e.1)
        ↔ a ∈ m.map (fun e => e.1) ∨ a ∈ l.map (fun kv => kv.1) := by
  induction l with
  | nil => intro m a; simp [foldXref]
  | cons kv rest ih =>
      intro m a
      have hstep : foldXref (kv :: rest) m = foldXref rest (addXref m kv.1 kv.2) := rfl
      rw [hstep, ih, mem_keys_addXref]
      simp only [List.map_cons, List.mem_cons]
      tauto

/-! Connecting the dictionary lemmas to `create_cross_reference_map`. -/

/-- All match records of a document, family by family in registry order:
the processing order of the cross-reference indexer. -/
def allRefs (text : List Char) : List RefData :=
  (find_references text).flatMap (fun e => e.2)

/-- The key-value pair one match contributes to the cross-reference map. -/
def refPair (text : List Char) (ref : RefData) : List Char × (Nat × List Char) :=
  (ref.full_text, (ref.position.1, contextOf text ref.position.1 ref.full_text))

theorem create_eq_foldXref (text : List Char) :
    create_cross_reference_map text = foldXref ((allRefs text).map (refPair text)) [] := by
  simp [create_cross_reference_map, foldXref, allRefs, refPair, List.foldl_map]

theorem keysNodup_create (text : List Char) :
    (((create_cross_reference_map text).map (fun e => e.1)).Nodup) := by
  rw [create_eq_foldXref]
  exact keysNodup_foldXref _ [] (by simp)

/-- The location list stored under a key is exactly the in-order projection of
the matches whose `full_text` equals that key. -/
theorem lookList_create (text : List Char) (k : List Char) :
    lookList (create_cross_reference_map text) k
      = ((allRefs text).filter (fun r => r.full_text = k)).map
          (fun r => (r.position.1, contextOf text r.position.1 r.full_text)) := by
  rw [create_eq_foldXref, lookList_foldXref]
  have hfil : (fun kv : List Char × (Nat × List Char) => decide (kv.1 = k)) ∘ refPair text
      = fun r => decide (r.full_text = k) := by
    funext r
    simp [refPair]
  rw [List.filter_map, hfil]
  simp only [lookList, List.nil_append, List.map_map]
  rfl

/-- Unpacking membership in the `find_references` dictionary. -/
theorem find_references_mem {text : List Char} {fam : String} {refs : List RefData}
    (h : (fam, refs) ∈ find_references text) :
    ∃ nr ∈ patterns, nr.1 = fam ∧ refs = findRefsFamily text nr.2 ∧ refs ≠ [] := by
  simp only [find_references, List.mem_filterMap] at h
  obtain ⟨nr, hnr, hsome⟩ := h
  by_cases he : (findRefsFamily text nr.2).isEmpty
  · simp [he] at hsome
  · simp only [he, if_false, Bool.false_eq_true, Option.some.injEq, Prod.mk.injEq] at hsome
    refine ⟨nr, hnr, hsome.1, hsome.2.symm, fun hc => he ?_⟩
    rw [List.isEmpty_iff, hsome.2]
    exact hc

/-- C1: every match record returned by the scanner `find_references` has a
span `(start, stop)` with `start ≤ stop ≤ length text` (spans are natural
numbers, so `0 ≤ start` holds by type), and its `full_text` equals the slice
`text[start:stop]` exactly. -/
theorem statuteFinder_C1 (text : List Char) (fam : String) (refs : List RefData)
    (h : (fam, refs) ∈ find_references text) (m : RefData) (hm : m ∈ refs) :
    m.position.1 ≤ m.position.2 ∧ m.position.2 ≤ text.length
      ∧ m.full_text = extract text m.position.1 m.position.2 := by
  obtain ⟨nr, _, _, hrefs, _⟩ := find_references_mem h
  subst hrefs
  simp only [findRefsFamily, List.mem_map] at hm
  obtain ⟨t, ht, rfl⟩ := hm
  have hb := finditerAux_mem text nr.2 (text.length + 1) 0 t ht
  exact ⟨hb.2.2.1, hb.2.2.2, rfl⟩

/-- C5: `unique_references` never exceeds `total_references`. -/
theorem statuteFinder_C5 (text : List Char) :
    (analyze_document text).unique_references ≤ (analyze_document text).total_references := by
  simp only [analyze_document, get_unique_references, List.map_map]
  refine List.sum_le_sum ?_
  intro e _
  simp only [Function.comp]
  calc ((e.2.map (fun r => r.full_text)).dedup).length
      ≤ (e.2.map (fun r => r.full_text)).length := (List.dedup_sublist _).length_le
    _ = e.2.length := List.length_map _ _

/-- C6: the analysis is a pure function of the text, so two results obtained
from the identical string are identical in full content. -/
theorem statuteFinder_C6 (text : List Char) (r1 r2 : AnalysisResult)
    (h1 : r1 = analyze_document text) (h2 : r2 = analyze_document text) : r1 = r2 :=
  h1.trans h2.symm

theorem statuteFinder_C6_witness : analyze_document [] = analyze_document [] :=
  statuteFinder_C6 [] (analyze_document []) (analyze_document []) rfl rfl

/-- C8: on the empty string the analysis is entirely empty: zero totals, no
per-family entries (hence no family reports a nonzero count), no
cross-references; moreover every family's scan of the empty text is empty. -/
theorem statuteFinder_C8 :
    analyze_document [] = ⟨0, 0, [], [], [], []⟩
      ∧ (patterns.all fun nr => (findRefsFamily [] nr.2).isEmpty) = true := by
  decide

/-- The family-to-entry function of `find_references`, with the emptiness
test written as a list equation. -/
theorem filterMap_fun_eq (F : Regex → List RefData) :
    (fun nr : String × Regex =>
        let ms := F nr.2
        if ms.isEmpty then none else some (nr.1, ms))
      = fun nr : String × Regex =>
          if F nr.2 = [] then none else some (nr.1, F nr.2) := by
  funext nr
  by_cases h0 : F nr.2 = [] <;> simp [h0]

/-- When a list is not empty, its `isEmpty` test is `false`. -/
theorem isEmpty_false_of_ne {α : Type _} {l : List α} (h : l ≠ []) : l.isEmpty = false := by
  rw [Bool.eq_false_iff]
  intro hc
  exact h (List.isEmpty_iff.mp hc)

/-- Keys surviving the empty-family filter of `find_references`. -/
theorem keys_filterMap_pattern (F : Regex → List RefData) (l : List (String × Regex)) :
    (l.filterMap fun nr =>
        let ms := F nr.2
        if ms.isEmpty then none else some (nr.1, ms)).map (fun e => e.1)
      = (l.filter fun nr => !(F nr.2).isEmpty).map (fun nr => nr.1) := by
  rw [filterMap_fun_eq]
  induction l with
  | nil => simp
  | cons nr rest ih =>
      by_cases h0 : F nr.2 = []
      · simp [List.filterMap_cons, List.filter_cons, h0, ih]
      · simp [List.filterMap_cons, List.filter_cons, h0, isEmpty_false_of_ne h0, ih]

/-- C10: a family appears as a key of `find_references` exactly when its
pattern has at least one raw match, and the `by_type`, `unique_citations` and
`all_references` dictionaries expose exactly the same keys. -/
theorem statuteFinder_C10 (text : List Char) :
    ((find_references text).map (fun e => e.1)
        = (patterns.filter fun nr => !(findRefsFamily text nr.2).isEmpty).map (fun nr => nr.1))
      ∧ (∀ fam : String, fam ∈ (find_references text).map (fun e => e.1)
            ↔ ∃ nr ∈ patterns, nr.1 = fam ∧ findRefsFamily text nr.2 ≠ [])
      ∧ (analyze_document text).by_type.map (fun e => e.1)
          = (find_references text).map (fun e => e.1)
      ∧ (analyze_document text).unique_citations.map (fun e => e.1)
          = (find_references text).map (fun e => e.1)
      ∧ (analyze_document text).all_references = find_references text := by
  refine ⟨keys_filterMap_pattern _ _, ?_, ?_, ?_, rfl⟩
  · intro fam
    rw [show (find_references text).map (fun e => e.1)
          = (patterns.filter fun nr => !(findRefsFamily text nr.2).isEmpty).map (fun nr => nr.1)
        from keys_filterMap_pattern _ _]
    simp only [List.mem_map, List.mem_filter, Bool.not_eq_true']
    constructor
    · rintro ⟨nr, ⟨hmem, hne⟩, rfl⟩
      refine ⟨nr, hmem, rfl, ?_⟩
      intro hc
      rw [hc] at hne
      simp at hne
    · rintro ⟨nr, hmem, rfl, hne⟩
      refine ⟨nr, ⟨hmem, ?_⟩, rfl⟩
      rw [Bool.eq_false_iff]
      intro hc
      exact hne (List.isEmpty_iff.mp hc)
  · simp [analyze_document, List.map_map, Function.comp]
  · simp [analyze_document, get_unique_references, List.map_map, Function.comp]

/-- Sums over the dictionary of `find_references` agree with sums over the
whole registry: the dropped empty families contribute zero. -/
theorem sum_filterMap_pattern (F : Regex → List RefData) (f : List RefData → Nat)
    (hf : f [] = 0) (l : List (String × Regex)) :
    ((l.filterMap fun nr =>
        let ms := F nr.2
        if ms.isEmpty then none else some (nr.1, ms)).map (fun e => f e.2)).sum
      = (l.map (fun nr => f (F nr.2))).sum := by
  rw [filterMap_fun_eq]
  induction l with
  | nil => simp
  | cons nr rest ih =>
      by_cases h0 : F nr.2 = []
      · simp [List.filterMap_cons, h0, hf, ih]
      · simp [List.filterMap_cons, h0, ih]

/-- C4: `total_references` is the sum of the per-family raw match counts over
the whole registry, and `unique_references` is the sum of the per-family
numbers of distinct `full_text` values (so an identical string matched by two
families would count once per family). -/
theorem statuteFinder_C4 (text : List Char) :
    (analyze_document text).total_references
        = (patterns.map fun nr => (findRefsFamily text nr.2).length).sum
      ∧ (analyze_document text).unique_references
        = (patterns.map fun nr =>
            ((findRefsFamily text nr.2).map (fun r => r.full_text)).toFinset.card).sum := by
  constructor
  · simpa [analyze_document, find_references] using
      sum_filterMap_pattern (findRefsFamily text) (fun ms => ms.length) rfl patterns
  · have h := sum_filterMap_pattern (findRefsFamily text)
        (fun ms => ((ms.map (fun r => r.full_text)).dedup).length) (by simp) patterns
    simp only [List.card_toFinset]
    simpa [analyze_document, get_unique_references, find_references, List.map_map,
      Function.comp] using h

/-- The location list stored under a key of the cross-reference map is the
in-order projection of all matches whose `full_text` is that key. -/
theorem xref_entry (text : List Char) {k : List Char} {locs : List (Nat × List Char)}
    (h : (k, locs) ∈ create_cross_reference_map text) :
    locs = ((allRefs text).filter (fun r => r.full_text = k)).map
        (fun r => (r.position.1, contextOf text r.position.1 r.full_text)) := by
  have hl := lookList_mem (keysNodup_create text) h
  rw [lookList_create] at hl
  exact hl.symm

/-- C3: a recurring surface text owns exactly one key of the cross-reference
map, and that key's location list has exactly as many entries as the string
has occurrences across all families' raw matches. -/
theorem statuteFinder_C3 (text : List Char) (k : List Char) (locs : List (Nat × List Char))
    (h : (k, locs) ∈ create_cross_reference_map text) :
    locs.length = ((find_references text).flatMap (fun e => e.2)).countP
        (fun r => r.full_text = k)
      ∧ ∀ locs2, (k, locs2) ∈ create_cross_reference_map text → locs2 = locs := by
  constructor
  · rw [xref_entry text h, List.length_map, ← List.countP_eq_length_filter]
    rfl
  · intro locs2 h2
    have ha := lookList_mem (keysNodup_create text) h
    have hb := lookList_mem (keysNodup_create text) h2
    rw [ha] at hb
    exact hb.symm

/-- C2: every stored context snippet is the clipped window
`text[max(0, pos - 50) : min(length, pos + len(key) + 50)]` with newlines
replaced by spaces (`Nat` subtraction realises the `max 0` clip); its length
is clipped to the available text, and a match at least 50 characters from
both boundaries yields a snippet of exactly `len(key) + 100` characters. -/
theorem statuteFinder_C2 (text : List Char) (k : List Char) (locs : List (Nat × List Char))
    (h : (k, locs) ∈ create_cross_reference_map text) (pc : Nat × List Char)
    (hpc : pc ∈ locs) :
    pc.2 = ((text.drop (pc.1 - 50)).take
          (min text.length (pc.1 + k.length + 50) - (pc.1 - 50))).map
          (fun c => if c = '\n' then ' ' else c)
      ∧ pc.2.length
          = min (min text.length (pc.1 + k.length + 50) - (pc.1 - 50))
              (text.length - (pc.1 - 50))
      ∧ (50 ≤ pc.1 → pc.1 + k.length + 50 ≤ text.length →
            pc.2.length = k.length + 100) := by
  rw [xref_entry text h] at hpc
  simp only [List.mem_map, List.mem_filter, decide_eq_true_eq] at hpc
  obtain ⟨r, ⟨_, hrk⟩, rfl⟩ := hpc
  subst hrk
  refine ⟨rfl, ?_, ?_⟩
  · simp [contextOf]
  · intro h1 h2
    simp only [contextOf, List.length_map, List.length_take, List.length_drop]
    omega

/-- C9: within one family the scanner's matches are in strictly ascending
position order, and every key's location list is exactly the projection of
the concatenated family lists in registry order restricted to that key — the
processing order, which need not be globally position-sorted. -/
theorem statuteFinder_C9 (text : List Char) (k : List Char) (locs : List (Nat × List Char))
    (e : String × List RefData) (h : (k, locs) ∈ create_cross_reference_map text)
    (he : e ∈ find_references text) :
    locs = (((find_references text).flatMap (fun x => x.2)).filter
          (fun r => r.full_text = k)).map
          (fun r => (r.position.1, contextOf text r.position.1 r.full_text))
      ∧ (e.2.map (fun r => r.position.1)).Pairwise (· < ·) := by
  refine ⟨xref_entry text h, ?_⟩
  obtain ⟨fam, refs⟩ := e
  obtain ⟨nr, _, _, hrefs, _⟩ := find_references_mem he
  subst hrefs
  simp only [findRefsFamily, List.map_map, Function.comp]
  exact finditerAux_sorted text nr.2 (text.length + 1) 0

/-! Concrete documents used by the scenario claim and the witnesses. -/

/-- Scenario input of C7. -/
def c7text : List Char :=
  ("42 U.S.C. § 1983 grants relief. See also 42 USC 1983 and 29 CFR 1910.1200.").toList

/-- A three-character document with one `Section_Only` match. -/
def t1 : List Char := ("§ 5").toList

/-- The match record the scanner produces on `t1`. -/
def r1 : RefData :=
  { full_text := ("§ 5").toList, position := (0, 3), groups := [some (("5").toList)] }

/-- A document in which the same surface text occurs twice. -/
def t3 : List Char := ("§ 5 and § 5").toList

/-- The recurring surface text of `t3`. -/
def k3 : List Char := ("§ 5").toList

/-- The two match records the scanner produces on `t3`. -/
def r3a : RefData := { full_text := k3, position := (0, 3), groups := [some (("5").toList)] }

def r3b : RefData := { full_text := k3, position := (8, 11), groups := [some (("5").toList)] }

/-- The single cross-reference entry of `t3`. -/
def locs3 : List (Nat × List Char) := [(0, contextOf t3 0 k3), (8, contextOf t3 8 k3)]

/-- A 103-character document whose single match sits 50 characters away from
both boundaries. -/
def c2wt : List Char := List.replicate 50 ' ' ++ ("§ 5").toList ++ List.replicate 50 ' '

/-- The single cross-reference entry of `c2wt`. -/
def locs2w : List (Nat × List Char) := [(50, contextOf c2wt 50 k3)]

theorem statuteFinder_C1_witness :
    r1.position.1 ≤ r1.position.2 ∧ r1.position.2 ≤ t1.length
      ∧ r1.full_text = extract t1 r1.position.1 r1.position.2 :=
  statuteFinder_C1 t1 ("Section_Only") [r1] (by decide) r1 (by decide)

set_option maxHeartbeats 1000000 in
set_option maxRecDepth 100000 in
theorem statuteFinder_C3_witness :
    locs3.length = ((find_references t3).flatMap (fun e => e.2)).countP
        (fun r => r.full_text = k3) :=
  (statuteFinder_C3 t3 k3 locs3 (by decide)).1

set_option maxHeartbeats 1000000 in
set_option maxRecDepth 100000 in
theorem statuteFinder_C9_witness :
    (([r3a, r3b].map (fun r => r.position.1)).Pairwise (· < ·)) :=
  (statuteFinder_C9 t3 k3 locs3 (("Section_Only"), [r3a, r3b]) (by decide) (by decide)).2

set_option maxHeartbeats 4000000 in
set_option maxRecDepth 100000 in
theorem statuteFinder_C2_witness :
    (contextOf c2wt 50 k3).length = k3.length + 100 :=
  (statuteFinder_C2 c2wt k3 locs2w (by decide) (50, contextOf c2wt 50 k3)
      (by decide)).2.2 (by decide) (by decide)

set_option maxHeartbeats 4000000 in
set_option maxRecDepth 100000 in
/-- C7 counterexample: on the scenario input the analysis finds 4 raw
references, not 3: the deliberately broad `Section_Only` pattern also matches
`"§ 1983"` inside `"42 U.S.C. § 1983"`, a fourth raw match the scenario
sentence does not account for. -/
theorem statuteFinder_C7_counterexample :
    ¬ ((analyze_document c7text).total_references = 3) := by decide

set_option maxHeartbeats 8000000 in
set_option maxRecDepth 100000 in
/-- C7 amended: the scenario input yields the two USC matches and one CFR
match of the claim plus one `Section_Only` match `"§ 1983"`; totals are
4 raw and 4 unique references, and the cross-reference map has 4 keys with
one location each. -/
theorem statuteFinder_C7_amended :
    ((analyze_document c7text).all_references.map
        (fun e => (e.1, e.2.map (fun r => r.full_text))))
      = [(("USC"), [("42 U.S.C. § 1983").toList, ("42 USC 1983").toList]),
         (("CFR"), [("29 CFR 1910.1200").toList]),
         (("Section_Only"), [("§ 1983").toList])]
    ∧ (analyze_document c7text).total_references = 4
    ∧ (analyze_document c7text).unique_references = 4
    ∧ (analyze_document c7text).by_type
        = [(("USC"), 2), (("CFR"), 1), (("Section_Only"), 1)]
    ∧ ((analyze_document c7text).unique_citations.map (fun e => (e.1, e.2.length)))
        = [(("USC"), 2), (("CFR"), 1), (("Section_Only"), 1)]
    ∧ ((analyze_document c7text).cross_reference_map.map (fun e => (e.1, e.2.length)))
        = [(("42 U.S.C. § 1983").toList, 1), (("42 USC 1983").toList, 1),
           (("29 CFR 1910.1200").toList, 1), (("§ 1983").toList, 1)] := by
  decide
